import Mathlib

/-!
# Shallow embedding of the reddit sentiment stock-selection pipeline

This file embeds the algorithmic core of the repository and proves the
specification's testable properties about it.

* `build_sp500_history.py` — parsing of the historical-changes table into a
  change log (`parseChanges`), the reverse-chronological sort
  (`sortDesc`, Python's stable `list.sort(reverse=True)`), and the backward
  weekly replay producing membership snapshots (`buildLoop`/`buildTimeline`).
* `sentiment_scraper.py` — the `TOP_N_WEEKLY` configuration constant; the
  weekly top-N selection (modelled from the spec, the selection code itself
  is not among the provided sources).
* `strategy_backtester.py` — the failure-relevant dataflow of
  `calculate_metrics`.

Modelling conventions: calendar dates are `Int` day numbers (only their
ordering and 7-day steps matter); Python `set` is `Finset String`; Python's
stable sort is `List.mergeSort`; Python string comparison is code-point
lexicographic, embedded below as `strLe`; the `ticker_to_name` dict is an
association list with the most recent binding first.
-/

namespace RedditStrategy

/-- Code-point lexicographic `≤` on char lists (Python string comparison). -/
def strLeAux : List Char → List Char → Bool
  | [], _ => true
  | _ :: _, [] => false
  | a :: as, b :: bs =>
    if a < b then true
    else if b < a then false
    else strLeAux as bs

/-- Python string comparison `a <= b` (code-point lexicographic). -/
def strLe (a b : String) : Bool := strLeAux a.data b.data

/-- `strLe` as a relation, used for `sorted(...)` on ticker sets. -/
def StrLE (a b : String) : Prop := strLe a b = true

theorem strLeAux_cons (x y : Char) (xs ys : List Char) :
    strLeAux (x :: xs) (y :: ys) = true ↔ x < y ∨ (x = y ∧ strLeAux xs ys = true) := by
  rcases lt_trichotomy x y with h | h | h
  · simp [strLeAux, h]
  · subst h
    simp [strLeAux, lt_irrefl]
  · have hne : x ≠ y := fun e => lt_irrefl y (by rw [e] at h; exact h)
    simp [strLeAux, h, lt_asymm h, hne]

theorem strLeAux_total : ∀ a b : List Char, strLeAux a b = true ∨ strLeAux b a = true
  | [], _ => Or.inl rfl
  | _ :: _, [] => Or.inr rfl
  | x :: xs, y :: ys => by
    rcases lt_trichotomy x y with h | h | h
    · exact Or.inl ((strLeAux_cons ..).2 (Or.inl h))
    · rcases strLeAux_total xs ys with h' | h'
      · exact Or.inl ((strLeAux_cons ..).2 (Or.inr ⟨h, h'⟩))
      · exact Or.inr ((strLeAux_cons ..).2 (Or.inr ⟨h.symm, h'⟩))
    · exact Or.inr ((strLeAux_cons ..).2 (Or.inl h))

theorem strLeAux_trans : ∀ a b c : List Char, strLeAux a b = true →
    strLeAux b c = true → strLeAux a c = true
  | [], _, _, _, _ => rfl
  | _ :: _, [], _, hab, _ => by simp [strLeAux] at hab
  | _ :: _, _ :: _, [], _, hbc => by simp [strLeAux] at hbc
  | x :: xs, y :: ys, z :: zs, hab, hbc => by
    rcases (strLeAux_cons ..).1 hab with h1 | ⟨h1, h1'⟩ <;>
      rcases (strLeAux_cons ..).1 hbc with h2 | ⟨h2, h2'⟩
    · exact (strLeAux_cons ..).2 (Or.inl (h1.trans h2))
    · exact (strLeAux_cons ..).2 (Or.inl (h2 ▸ h1))
    · exact (strLeAux_cons ..).2 (Or.inl (h1 ▸ h2))
    · exact (strLeAux_cons ..).2 (Or.inr ⟨h1.trans h2, strLeAux_trans xs ys zs h1' h2'⟩)

theorem strLeAux_antisymm : ∀ a b : List Char, strLeAux a b = true →
    strLeAux b a = true → a = b
  | [], [], _, _ => rfl
  | [], _ :: _, _, hba => by simp [strLeAux] at hba
  | _ :: _, [], hab, _ => by simp [strLeAux] at hab
  | x :: xs, y :: ys, hab, hba => by
    rcases (strLeAux_cons ..).1 hab with h1 | ⟨h1, h1'⟩ <;>
      rcases (strLeAux_cons ..).1 hba with h2 | ⟨h2, h2'⟩
    · exact absurd h2 (lt_asymm h1)
    · exact absurd h1 (h2 ▸ lt_irrefl x)
    · exact absurd h2 (h1 ▸ lt_irrefl x)
    · exact h1 ▸ congrArg (x :: ·) (strLeAux_antisymm xs ys h1' h2')

theorem strLe_trans {a b c : String} (hab : strLe a b = true)
    (hbc : strLe b c = true) : strLe a c = true :=
  strLeAux_trans a.data b.data c.data hab hbc

theorem strLe_total (a b : String) : strLe a b = true ∨ strLe b a = true :=
  strLeAux_total a.data b.data

theorem strLe_antisymm {a b : String} (hab : strLe a b = true)
    (hba : strLe b a = true) : a = b := by
  cases a with
  | mk da =>
    cases b with
    | mk db => exact congrArg String.mk (strLeAux_antisymm da db hab hba)

theorem strLe_refl (a : String) : strLe a a = true := by
  rcases strLe_total a a with h | h <;> exact h

instance : DecidableRel StrLE := fun a b => by unfold StrLE; infer_instance

instance : IsTrans String StrLE := ⟨fun _ _ _ => strLe_trans⟩

instance : IsAntisymm String StrLE := ⟨fun _ _ => strLe_antisymm⟩

instance : IsTotal String StrLE := ⟨strLe_total⟩

instance : IsRefl String StrLE := ⟨strLe_refl⟩

/-- One entry of `change_log`: the tuple `(date, ticker, action, name)`
appended by the parsing loop of `build_sp500_history.py`. -/
structure Event where
  date : Int
  ticker : String
  action : String
  name : String
deriving DecidableEq, Repr

/-- Python's comparison on the 4-tuples `(date, ticker, action, name)`:
lexicographic, strings compared code-point-wise. -/
def eventLe (a b : Event) : Bool :=
  if a.date ≠ b.date then decide (a.date < b.date)
  else if a.ticker ≠ b.ticker then strLe a.ticker b.ticker
  else if a.action ≠ b.action then strLe a.action b.action
  else strLe a.name b.name

/-- `change_log.sort(reverse=True)`: a stable sort placing larger tuples
first (Python's `list.sort` is stable; `reverse=True` flips the comparison
while keeping equal elements in input order, exactly as a stable merge sort
with the flipped comparator does). -/
def sortDesc (log : List Event) : List Event :=
  log.mergeSort (fun a b => eventLe b a)

/-- The `ticker_to_name` dict: an association list, most recent binding
first. -/
abbrev Dict := List (String × String)

/-- `ticker_to_name[t] = n`. -/
def dictUpd (m : Dict) (t n : String) : Dict := (t, n) :: m

/-- Lookup in `ticker_to_name`. -/
def dictFind (m : Dict) (t : String) : Option String :=
  (m.find? fun p => p.1 == t).map (·.2)

/-- `ticker_to_name.get(t, dflt)`. -/
def dictGet (m : Dict) (t dflt : String) : String := (dictFind m t).getD dflt

/-- One row of the historical-changes table, after the string munging the
claims do not touch: `date` is `none` when `pd.to_datetime(row['date'])`
raises (the row is skipped); `addedTickers`/`removedTickers` are `none`
when the cell is not a string (NaN), otherwise the comma-split,
stripped-and-uppercased ticker list; the name fields are the comma-split,
stripped name lists. -/
structure ChangeRow where
  date : Option Int
  addedTickers : Option (List String)
  addedNames : List String
  removedTickers : Option (List String)
  removedNames : List String

/-- The body of `for t, n in zip(tickers, names): change_log.append(...);
ticker_to_name[t] = n` for one action of one row. -/
def recordEvents (d : Int) (act : String) (ts ns : List String)
    (acc : List Event × Dict) : List Event × Dict :=
  (acc.1 ++ (ts.zip ns).map fun p => Event.mk d p.1 act p.2,
   (ts.zip ns).foldl (fun m p => dictUpd m p.1 p.2) acc.2)

/-- One iteration of the parsing loop over `changes_table.iterrows()`. -/
def parseRow (acc : List Event × Dict) (row : ChangeRow) : List Event × Dict :=
  match row.date with
  | none => acc
  | some d =>
    let acc1 :=
      match row.addedTickers with
      | none => acc
      | some ts => recordEvents d "ADD" ts row.addedNames acc
    match row.removedTickers with
    | none => acc1
    | some ts => recordEvents d "REMOVE" ts row.removedNames acc1

/-- The whole parsing loop: builds `change_log` and finishes updating
`ticker_to_name` (whose initial value comes from the current roster). -/
def parseChanges (rows : List ChangeRow) (m0 : Dict) : List Event × Dict :=
  rows.foldl parseRow ([], m0)

/-- Undoing one event while backtracking (`ADD` → `discard`,
`REMOVE` → `add`). -/
def undo (s : Finset String) (e : Event) : Finset String :=
  if e.action = "ADD" then s.erase e.ticker
  else if e.action = "REMOVE" then insert e.ticker s
  else s

/-- Re-applying one event forward in time, as the spec's round-trip
property reads the original events: `ADD` inserts, `REMOVE` deletes. -/
def redo (s : Finset String) (e : Event) : Finset String :=
  if e.action = "ADD" then insert e.ticker s
  else if e.action = "REMOVE" then s.erase e.ticker
  else s

/-- The inner `while change_log and change_log[0][0] > snapshot_date` loop:
pops events from the front of the queue and undoes them; returns the
remaining queue and the new working set. -/
def popWhile (d : Int) : List Event → Finset String → List Event × Finset String
  | [], s => ([], s)
  | e :: rest, s =>
    if d < e.date then popWhile d rest (undo s e) else (e :: rest, s)

/-- One row of `weekly_snapshots`. -/
structure Snapshot where
  week_start : Int
  tickers : List String
  names : List String
deriving DecidableEq, Repr

/-- Python's `sorted(...)` on a multiset of strings: the unique
`strLe`-sorted enumeration, computed by a stable insertion sort (any
correct sort of a set yields the same list, the order being total and
antisymmetric). -/
def msort (m : Multiset String) : List String :=
  Quotient.liftOn m (List.insertionSort StrLE) fun a b h =>
    List.eq_of_perm_of_sorted
      (((List.perm_insertionSort StrLE a).trans h).trans
        (List.perm_insertionSort StrLE b).symm)
      (List.sorted_insertionSort StrLE a) (List.sorted_insertionSort StrLE b)

/-- `sorted(constituents)`. -/
def sortedTickers (s : Finset String) : List String := msort s.val

/-- The outer `while snapshot_date >= start_date` loop. Besides the
snapshot list it returns the final queue and working set (the state the
Python loop leaves behind in `change_log` and `constituents`). -/
def buildLoop (st : Int) (m : Dict) (d : Int) (log : List Event)
    (s : Finset String) : List Snapshot × List Event × Finset String :=
  if st ≤ d then
    let p := popWhile d log s
    let ts := sortedTickers p.2
    let rest := buildLoop st m (d - 7) p.1 p.2
    (Snapshot.mk d ts (ts.map fun t => dictGet m t "NA") :: rest.1, rest.2)
  else ([], log, s)
termination_by (d - st + 7).toNat
decreasing_by omega

/-- Steps 4-5 of `build_sp500_history.py` from the sorted change log:
the produced list `weekly_snapshots`. -/
def buildTimeline (st e : Int) (current : Finset String) (m : Dict)
    (log : List Event) : List Snapshot :=
  (buildLoop st m e (sortDesc log) current).1

/-- One row of the current-constituents table. -/
structure CurrentRow where
  symbol : String
  security : String

/-- The whole builder pipeline of `build_sp500_history.py` steps 2-4:
current roster set, initial `ticker_to_name` from `zip(Symbol, Security)`,
change-log parsing, reverse-chronological sort, backward weekly replay. -/
def runBuilder (st e : Int) (current : List CurrentRow) (rows : List ChangeRow) :
    List Snapshot :=
  let currentSet : Finset String := (current.map (·.symbol)).toFinset
  let m0 : Dict := current.foldl (fun m r => dictUpd m r.symbol r.security) []
  let parsed := parseChanges rows m0
  buildTimeline st e currentSet parsed.2 parsed.1

/-- The sequence of snapshot dates the outer loop visits: `e`, `e - 7`, …
down to the smallest such value `≥ st`. -/
def anchorDates (st d : Int) : List Int :=
  if st ≤ d then d :: anchorDates st (d - 7) else []
termination_by (d - st + 7).toNat
decreasing_by omega

/-- The earliest snapshot date the loop visits when `st ≤ d`. -/
def lastAnchor (st d : Int) : Int := d - 7 * ((d - st) / 7)

/-- A backward pass over `evs` starting from working set `s` is consistent
when every undone `ADD`'s ticker is present and every undone `REMOVE`'s
ticker absent at the moment it is undone. -/
def consistentUndo : Finset String → List Event → Bool
  | _, [] => true
  | s, e :: rest =>
    (if e.action = "ADD" then decide (e.ticker ∈ s)
     else if e.action = "REMOVE" then !decide (e.ticker ∈ s)
     else true) && consistentUndo (undo s e) rest

/-- `Config.TOP_N_WEEKLY` from `sentiment_scraper.py`. -/
def TOP_N_WEEKLY : Nat := 5

/-- Comparator for the weekly selection: descending by mention count,
ascending by ticker symbol as tie-break. -/
def selLe (a b : String × Nat) : Bool :=
  if a.2 ≠ b.2 then decide (b.2 < a.2) else strLe a.1 b.1

/-- Modelled from the spec: the weekly top-N selection of
`sentiment_scraper.py` (§4.2 step 4: "Sort resulting `(ticker, count)`
pairs descending by count, ascending by ticker symbol as tie-break, and
take the first `TOP_N_WEEKLY`"). The selection code itself is absent from
the provided source, which breaks off inside
`initialize_reddit_client`. -/
def topSelection (n : Nat) (tally : List (String × Nat)) : List (String × Nat) :=
  (tally.mergeSort selLe).take n

/-- The fields of `calculate_metrics` relevant to its failure behaviour:
the cumulative compounded return series, its last value, and the exact
`years` and `1 / years` quantities of the CAGR computation. The
mean/volatility/Sharpe/drawdown outputs involve irrational operations
(square roots, real powers) and are not needed by any claim; they are
omitted from the record. -/
structure Metrics where
  cumulative_return : List ℚ
  total_return : ℚ
  years : ℚ
  cagr_exponent : ℚ
deriving DecidableEq, Repr

/-- `(1 + returns_df).cumprod()`. -/
def cumprod (returns : List ℚ) : List ℚ :=
  (returns.foldl (fun acc r => ((acc.headD 1) * (1 + r)) :: acc) []).reverse

/-- The failure-relevant dataflow of `calculate_metrics`
(`strategy_backtester.py`, lines 46-73), in program order:
`cumulative_returns.iloc[-1]` raises `IndexError` on an empty series
(modelled by `none`), and `1 / years` raises `ZeroDivisionError` when
`years = len(returns_df) / 52` is zero (also `none`); otherwise the record
is produced. -/
def calculate_metrics (returns : List ℚ) : Option Metrics :=
  let cumulative := cumprod returns
  match cumulative.getLast? with
  | none => none
  | some total =>
    let years : ℚ := (returns.length : ℚ) / 52
    if years = 0 then none
    else some (Metrics.mk cumulative total years (1 / years))

/-! ## Helper lemmas about the backward replay -/

theorem popWhile_eq (d : Int) : ∀ (log : List Event) (s : Finset String),
    popWhile d log s =
      (log.dropWhile fun e => decide (d < e.date),
       (log.takeWhile fun e => decide (d < e.date)).foldl undo s)
  | [], _ => rfl
  | e :: rest, s => by
    by_cases h : d < e.date
    · simp [popWhile, h, popWhile_eq d rest (undo s e)]
    · simp [popWhile, h]

theorem takeWhile_split {α : Type} (p q : α → Bool)
    (hpq : ∀ a, q a = true → p a = true) :
    ∀ l : List α, l.takeWhile p = l.takeWhile q ++ (l.dropWhile q).takeWhile p
  | [] => rfl
  | a :: l => by
    by_cases h : q a = true
    · simp [List.takeWhile_cons, List.dropWhile_cons, h, hpq a h,
        takeWhile_split p q hpq l]
    · simp [List.takeWhile_cons, List.dropWhile_cons, h]

theorem dropWhile_dropWhile {α : Type} (p q : α → Bool)
    (hpq : ∀ a, q a = true → p a = true) :
    ∀ l : List α, (l.dropWhile q).dropWhile p = l.dropWhile p
  | [] => rfl
  | a :: l => by
    by_cases h : q a = true
    · simp [List.dropWhile_cons, h, hpq a h, dropWhile_dropWhile p q hpq l]
    · simp [List.dropWhile_cons, h]

/-- Going down from `d` in steps of 7 while staying `≥ st` reaches every
integer below `st` and every value of the loop counter. -/
theorem le_induction_down (st : Int) {P : Int → Prop}
    (base : ∀ d, ¬ st ≤ d → P d)
    (step : ∀ d, st ≤ d → P (d - 7) → P d) : ∀ d, P d := by
  have key : ∀ n : Nat, ∀ d : Int, (d - st).toNat ≤ n → P d := by
    intro n
    induction n with
    | zero =>
      intro d hd
      by_cases h : st ≤ d
      · exact step d h (base _ (by omega))
      · exact base d h
    | succ n ih =>
      intro d hd
      by_cases h : st ≤ d
      · exact step d h (ih _ (by omega))
      · exact base d h
  intro d
  exact key (d - st).toNat d le_rfl

theorem buildLoop_pos {st d : Int} (m : Dict) (log : List Event)
    (s : Finset String) (h : st ≤ d) :
    buildLoop st m d log s =
      (Snapshot.mk d (sortedTickers (popWhile d log s).2)
          ((sortedTickers (popWhile d log s).2).map fun t => dictGet m t "NA") ::
        (buildLoop st m (d - 7) (popWhile d log s).1 (popWhile d log s).2).1,
       (buildLoop st m (d - 7) (popWhile d log s).1 (popWhile d log s).2).2) := by
  rw [buildLoop]
  simp [h]

theorem buildLoop_neg {st d : Int} (m : Dict) (log : List Event)
    (s : Finset String) (h : ¬ st ≤ d) :
    buildLoop st m d log s = ([], log, s) := by
  rw [buildLoop]
  simp [h]

/-- Soundness of the backward replay: every snapshot the loop emits is
anchored in the visited date grid, its ticker list is the sorted working
set obtained by undoing exactly the queue prefix of events dated strictly
after its own date, and its name list resolves those tickers through
`ticker_to_name`. -/
theorem buildLoop_mem (st : Int) (m : Dict) :
    ∀ d log s snap, snap ∈ (buildLoop st m d log s).1 →
      st ≤ snap.week_start ∧ snap.week_start ≤ d ∧
      (d - snap.week_start) % 7 = 0 ∧
      snap.tickers =
        sortedTickers
          ((log.takeWhile fun e => decide (snap.week_start < e.date)).foldl undo s) ∧
      snap.names = snap.tickers.map fun t => dictGet m t "NA" := by
  refine le_induction_down st ?_ ?_
  · intro d hd log s snap hmem
    rw [buildLoop_neg m log s hd] at hmem
    simp at hmem
  · intro d hd ih log s snap hmem
    rw [buildLoop_pos m log s hd] at hmem
    rcases List.mem_cons.1 hmem with rfl | hmem
    · refine ⟨hd, le_rfl, by simp, ?_, rfl⟩
      rw [popWhile_eq]
    · obtain ⟨h1, h2, h3, h4, h5⟩ :=
        ih (popWhile d log s).1 (popWhile d log s).2 snap hmem
      refine ⟨h1, by omega, by omega, ?_, h5⟩
      have hpq : ∀ e : Event, decide (d < e.date) = true →
          decide (snap.week_start < e.date) = true := by
        intro e he
        simp only [decide_eq_true_eq] at he ⊢
        omega
      rw [h4, popWhile_eq,
        takeWhile_split (fun e => decide (snap.week_start < e.date))
          (fun e => decide (d < e.date)) hpq log,
        List.foldl_append]

theorem anchorDates_pos {st d : Int} (h : st ≤ d) :
    anchorDates st d = d :: anchorDates st (d - 7) := by
  rw [anchorDates]
  simp [h]

theorem anchorDates_neg {st d : Int} (h : ¬ st ≤ d) : anchorDates st d = [] := by
  rw [anchorDates]
  simp [h]

theorem mem_anchorDates (st : Int) :
    ∀ d, ∀ x, x ∈ anchorDates st d ↔ st ≤ x ∧ x ≤ d ∧ (d - x) % 7 = 0 := by
  refine le_induction_down st ?_ ?_
  · intro d hd x
    rw [anchorDates_neg hd]
    simp only [List.not_mem_nil, false_iff]
    omega
  · intro d hd ih x
    rw [anchorDates_pos hd]
    simp only [List.mem_cons, ih]
    constructor
    · rintro (rfl | ⟨h1, h2, h3⟩)
      · exact ⟨hd, le_rfl, by simp⟩
      · exact ⟨h1, by omega, by omega⟩
    · rintro ⟨h1, h2, h3⟩
      by_cases hx : x = d
      · exact Or.inl hx
      · exact Or.inr ⟨h1, by omega, by omega⟩

theorem anchorDates_sorted (st : Int) :
    ∀ d, (anchorDates st d).Pairwise (· > ·) := by
  refine le_induction_down st ?_ ?_
  · intro d hd
    rw [anchorDates_neg hd]
    exact List.Pairwise.nil
  · intro d hd ih
    rw [anchorDates_pos hd]
    refine List.pairwise_cons.2 ⟨?_, ih⟩
    intro x hx
    have := ((mem_anchorDates st (d - 7) x).1 hx).2.1
    omega

theorem buildLoop_dates (st : Int) (m : Dict) :
    ∀ d, ∀ log s, ((buildLoop st m d log s).1.map (·.week_start)) = anchorDates st d := by
  refine le_induction_down st ?_ ?_
  · intro d hd log s
    rw [buildLoop_neg m log s hd, anchorDates_neg hd]
    rfl
  · intro d hd ih log s
    rw [buildLoop_pos m log s hd, anchorDates_pos hd]
    simp only [List.map_cons]
    rw [ih]

theorem lastAnchor_sub (st d : Int) : lastAnchor st (d - 7) = lastAnchor st d := by
  unfold lastAnchor
  omega

theorem lastAnchor_eq_self {st d : Int} (h1 : st ≤ d) (h2 : d < st + 7) :
    lastAnchor st d = d := by
  unfold lastAnchor
  omega

theorem lastAnchor_bounds {st d : Int} (h : st ≤ d) :
    st ≤ lastAnchor st d ∧ lastAnchor st d ≤ d := by
  unfold lastAnchor
  omega

/-- After the whole backward pass, the queue the loop leaves behind is the
original queue with precisely the events dated after the earliest visited
snapshot date removed from the front. -/
theorem buildLoop_queue (st : Int) (m : Dict) :
    ∀ d, ∀ log s, st ≤ d →
      (buildLoop st m d log s).2.1 =
        log.dropWhile fun e => decide (lastAnchor st d < e.date) := by
  refine le_induction_down st ?_ ?_
  · intro d hd log s hle
    exact absurd hle hd
  · intro d hd ih log s _
    rw [buildLoop_pos m log s hd]
    by_cases h7 : st ≤ d - 7
    · have hq := ih (popWhile d log s).1 (popWhile d log s).2 h7
      rw [hq, lastAnchor_sub, popWhile_eq]
      refine dropWhile_dropWhile _ _ ?_ log
      intro e he
      simp only [decide_eq_true_eq] at he ⊢
      have := (lastAnchor_bounds hd).2
      omega
    · rw [buildLoop_neg m _ _ h7, popWhile_eq, lastAnchor_eq_self hd (by omega)]

/-! ## Lemmas about the reverse-chronological sort -/

theorem lexIf_trans {α : Type} [DecidableEq α] (le : α → α → Bool)
    (ltrans : ∀ {x y z : α}, le x y = true → le y z = true → le x z = true)
    (lantisymm : ∀ {x y : α}, le x y = true → le y x = true → x = y)
    {x y z : α} {p q r : Bool}
    (hpqr : p = true → q = true → r = true)
    (h1 : (if x ≠ y then le x y else p) = true)
    (h2 : (if y ≠ z then le y z else q) = true) :
    (if x ≠ z then le x z else r) = true := by
  by_cases e1 : x = y
  · subst e1
    by_cases e2 : x = z
    · subst e2
      simp at h1 h2 ⊢
      exact hpqr h1 h2
    · simp [e2] at h2 ⊢
      exact h2
  · by_cases e2 : y = z
    · subst e2
      simp [e1] at h1 ⊢
      exact h1
    · simp [e1] at h1
      simp [e2] at h2
      by_cases e3 : x = z
      · subst e3
        exact absurd (lantisymm h1 h2) e1
      · simp [e3]
        exact ltrans h1 h2

theorem lexIf_total {α : Type} [DecidableEq α] (le : α → α → Bool)
    (ltotal : ∀ x y : α, x ≠ y → le x y = true ∨ le y x = true)
    {x y : α} {p q : Bool}
    (hpq : x = y → p = true ∨ q = true) :
    (if x ≠ y then le x y else p) = true ∨
      (if y ≠ x then le y x else q) = true := by
  by_cases h : x = y
  · subst h
    simpa using hpq rfl
  · simp [h, Ne.symm h]
    exact ltotal x y h

theorem eventLe_trans {a b c : Event} (hab : eventLe a b = true)
    (hbc : eventLe b c = true) : eventLe a c = true := by
  unfold eventLe at hab hbc ⊢
  refine lexIf_trans (fun x y : Int => decide (x < y))
    (fun h1 h2 => by simp only [decide_eq_true_eq] at h1 h2 ⊢; omega)
    (fun h1 h2 => by simp only [decide_eq_true_eq] at h1 h2; omega) ?_ hab hbc
  intro h1 h2
  refine lexIf_trans strLe (fun hu hv => strLe_trans hu hv)
    (fun hu hv => strLe_antisymm hu hv) ?_ h1 h2
  intro h1 h2
  refine lexIf_trans strLe (fun hu hv => strLe_trans hu hv)
    (fun hu hv => strLe_antisymm hu hv) ?_ h1 h2
  intro h1 h2
  exact strLe_trans h1 h2

theorem eventLe_total (a b : Event) : eventLe a b = true ∨ eventLe b a = true := by
  unfold eventLe
  refine lexIf_total (fun x y : Int => decide (x < y))
    (fun x y h => by simp only [decide_eq_true_eq]; omega) ?_
  intro _
  refine lexIf_total strLe (fun x y _ => strLe_total x y) ?_
  intro _
  refine lexIf_total strLe (fun x y _ => strLe_total x y) ?_
  intro _
  exact strLe_total _ _

theorem eventLe_date {a b : Event} (h : eventLe a b = true) : a.date ≤ b.date := by
  unfold eventLe at h
  by_cases hd : a.date = b.date
  · exact le_of_eq hd
  · simp only [ne_eq, hd, not_false_eq_true, if_true, decide_eq_true_eq] at h
    omega

theorem sortDesc_perm (log : List Event) : (sortDesc log).Perm log :=
  List.mergeSort_perm log _

theorem sortDesc_sorted (log : List Event) :
    (sortDesc log).Pairwise fun a b => eventLe b a = true := by
  refine List.sorted_mergeSort ?_ ?_ log
  · intro a b c hab hbc
    exact eventLe_trans hbc hab
  · intro a b
    rcases eventLe_total b a with h | h <;> simp [h]

theorem sortDesc_dateSorted (log : List Event) :
    (sortDesc log).Pairwise fun a b => b.date ≤ a.date :=
  (sortDesc_sorted log).imp fun h => eventLe_date h

theorem takeWhile_eq_filter_of_sorted (c : Int) :
    ∀ l : List Event, l.Pairwise (fun a b => b.date ≤ a.date) →
      (l.takeWhile fun e => decide (c < e.date)) =
        l.filter fun e => decide (c < e.date)
  | [], _ => rfl
  | e :: l, h => by
    rcases List.pairwise_cons.1 h with ⟨he, hl⟩
    by_cases hc : c < e.date
    · have h0 : decide (c < e.date) = true := by simp [hc]
      simp only [List.takeWhile_cons, List.filter_cons, h0, if_pos]
      rw [takeWhile_eq_filter_of_sorted c l hl]
    · have h0 : decide (c < e.date) = false := by simp [hc]
      simp only [List.takeWhile_cons, List.filter_cons, h0,
        Bool.false_eq_true, if_false]
      symm
      rw [List.filter_eq_nil_iff]
      intro x hx
      have := he x hx
      simp only [decide_eq_true_eq]
      omega

/-! ## The forward replay (round-trip) -/

theorem redo_undo {s : Finset String} {e : Event}
    (h : (if e.action = "ADD" then decide (e.ticker ∈ s)
          else if e.action = "REMOVE" then !decide (e.ticker ∈ s)
          else true) = true) :
    redo (undo s e) e = s := by
  by_cases h1 : e.action = "ADD"
  · have hm : e.ticker ∈ s := by
      rw [if_pos h1] at h
      exact of_decide_eq_true h
    unfold redo undo
    rw [if_pos h1, if_pos h1]
    exact Finset.insert_erase hm
  · by_cases h2 : e.action = "REMOVE"
    · have hm : e.ticker ∉ s := by
        rw [if_neg h1, if_pos h2] at h
        simpa using h
      unfold redo undo
      rw [if_neg h1, if_pos h2, if_neg h1, if_pos h2]
      exact Finset.erase_insert hm
    · unfold redo undo
      rw [if_neg h1, if_neg h2, if_neg h1, if_neg h2]

theorem replay_roundtrip : ∀ (evs : List Event) (s : Finset String),
    consistentUndo s evs = true →
    evs.reverse.foldl redo (evs.foldl undo s) = s
  | [], _, _ => rfl
  | e :: rest, s, h => by
    have h' : (if e.action = "ADD" then decide (e.ticker ∈ s)
        else if e.action = "REMOVE" then !decide (e.ticker ∈ s)
        else true) = true ∧ consistentUndo (undo s e) rest = true := by
      simpa only [consistentUndo, Bool.and_eq_true] using h
    simp only [List.foldl_cons, List.reverse_cons, List.foldl_append,
      List.foldl_nil]
    rw [replay_roundtrip rest (undo s e) h'.2]
    exact redo_undo h'.1

/-- Snapshot characterization at the `buildTimeline` level, with the undone
events written as a filter of the sorted log: a snapshot's tickers are the
sorted working set obtained by undoing, on the current membership, exactly
the events dated strictly after the snapshot's own date. -/
theorem buildTimeline_tickers {st e : Int} {cur : Finset String} {m : Dict}
    {log : List Event} {snap : Snapshot}
    (h : snap ∈ buildTimeline st e cur m log) :
    st ≤ snap.week_start ∧ snap.week_start ≤ e ∧
    (e - snap.week_start) % 7 = 0 ∧
    snap.tickers =
      sortedTickers
        (((sortDesc log).filter fun ev =>
          decide (snap.week_start < ev.date)).foldl undo cur) ∧
    snap.names = snap.tickers.map fun t => dictGet m t "NA" := by
  obtain ⟨h1, h2, h3, h4, h5⟩ := buildLoop_mem st m e (sortDesc log) cur snap h
  refine ⟨h1, h2, h3, ?_, h5⟩
  rw [h4, takeWhile_eq_filter_of_sorted _ _ (sortDesc_dateSorted log)]

theorem sortDesc_singleton (e : Event) : sortDesc [e] = [e] := by
  simp [sortDesc]

/-- Concrete evaluation: current membership {A,B,C,D}, one ADD-D event at
day 151, one requested snapshot at day 120. -/
theorem timelineABCD_eq :
    buildTimeline 120 120 ({"A", "B", "C", "D"} : Finset String) []
      [Event.mk 151 "D" "ADD" "D Corp"] =
    [Snapshot.mk 120 ["A", "B", "C"] ["NA", "NA", "NA"]] := by
  unfold buildTimeline
  rw [sortDesc_singleton]
  rw [buildLoop_pos _ _ _ (by norm_num)]
  rw [buildLoop_neg _ _ _ (by norm_num)]
  decide

/-- Concrete evaluation: current membership {A,B,C}, one ADD-D event at
day 151, one requested snapshot at day 181. -/
theorem timelineABC_eq :
    buildTimeline 181 181 ({"A", "B", "C"} : Finset String) []
      [Event.mk 151 "D" "ADD" "D Corp"] =
    [Snapshot.mk 181 ["A", "B", "C"] ["NA", "NA", "NA"]] := by
  unfold buildTimeline
  rw [sortDesc_singleton]
  rw [buildLoop_pos _ _ _ (by norm_num)]
  rw [buildLoop_neg _ _ _ (by norm_num)]
  decide

theorem mem_msort {t : String} {m : Multiset String} : t ∈ msort m ↔ t ∈ m := by
  induction m using Quotient.inductionOn with
  | h l =>
    have h : t ∈ List.insertionSort StrLE l ↔ t ∈ l :=
      (List.perm_insertionSort StrLE l).mem_iff
    exact h.trans Multiset.mem_coe.symm

theorem mem_sortedTickers {t : String} {s : Finset String} :
    t ∈ sortedTickers s ↔ t ∈ s := by
  rw [sortedTickers, mem_msort]
  exact Iff.rfl

theorem sortedTickers_toFinset (s : Finset String) :
    (sortedTickers s).toFinset = s :=
  Finset.ext fun t => by rw [List.mem_toFinset, mem_sortedTickers]

/-! ## The claims -/

/-- Claim C2 counterexample: the claim's own scenario contradicts the
code. With current membership {A,B,C} and a single (2023-06-01, D, ADD)
event — day numbers 151 for 2023-06-01 and 181 for 2023-07-01 — the
snapshot the builder produces for 2023-07-01 has members {A,B,C}: no event
is dated strictly after day 181, so nothing is undone and D (absent from
the current membership) never appears, contrary to the scenario's demanded
{A,B,C,D}. -/
theorem point_in_time_scenario_counterexample :
    (buildTimeline 181 181 ({"A", "B", "C"} : Finset String) []
        [Event.mk 151 "D" "ADD" "D Corp"]).map (·.tickers) = [["A", "B", "C"]] ∧
    (["A", "B", "C"] : List String) ≠ ["A", "B", "C", "D"] := by
  rw [timelineABC_eq]
  exact ⟨rfl, by decide⟩

/-- Claim C2 (amended): point-in-time semantics of a snapshot. Every
snapshot in the built timeline contains a ticker iff the ticker is in the
set obtained from the current membership by undoing exactly the events
whose `effective_date` is strictly after the snapshot date (in the order
the queue presents them; undoing an ADD removes the ticker, undoing a
REMOVE re-adds it, per `undo`). The claim's scenario holds once its
current membership is made consistent with its event log: with current
membership {A,B,C,D} and the single (2023-06-01, D, ADD) event, the
snapshot for 2023-05-01 is {A,B,C} and the one for 2023-07-01 is
{A,B,C,D}. -/
theorem point_in_time_semantics {st e : Int} {cur : Finset String} {m : Dict}
    {log : List Event} {snap : Snapshot}
    (h : snap ∈ buildTimeline st e cur m log) (t : String) :
    t ∈ snap.tickers ↔
      t ∈ ((sortDesc log).filter fun ev =>
        decide (snap.week_start < ev.date)).foldl undo cur := by
  obtain ⟨-, -, -, h4, -⟩ := buildTimeline_tickers h
  rw [h4]
  exact mem_sortedTickers

/-- Witness for C2: the amended scenario, with 2023-05-01 as day 120. The
snapshot built for day 120 from current membership {A,B,C,D} and the
single ADD-D event of day 151 is {A,B,C}, and the theorem's
characterization holds for the ticker D at that snapshot. -/
theorem point_in_time_semantics_witness :
    (Snapshot.mk 120 ["A", "B", "C"] ["NA", "NA", "NA"]) ∈
      buildTimeline 120 120 ({"A", "B", "C", "D"} : Finset String) []
        [Event.mk 151 "D" "ADD" "D Corp"] ∧
    ("D" ∈ (Snapshot.mk 120 ["A", "B", "C"] ["NA", "NA", "NA"]).tickers ↔
      "D" ∈ ((sortDesc [Event.mk 151 "D" "ADD" "D Corp"]).filter fun ev =>
        decide ((Snapshot.mk 120 ["A", "B", "C"] ["NA", "NA", "NA"]).week_start <
          ev.date)).foldl undo ({"A", "B", "C", "D"} : Finset String)) := by
  have hmem : (Snapshot.mk 120 ["A", "B", "C"] ["NA", "NA", "NA"]) ∈
      buildTimeline 120 120 ({"A", "B", "C", "D"} : Finset String) []
        [Event.mk 151 "D" "ADD" "D Corp"] := by
    rw [timelineABCD_eq]
    exact List.mem_singleton.2 rfl
  exact ⟨hmem, point_in_time_semantics hmem "D"⟩

/-- Claim C1 counterexample: the round-trip fails on an inconsistent
input, with no consistency hypothesis the claim is false as stated. With
current membership ∅ and a single (day 10, D, ADD) event, the only
snapshot (for day 0) has member set ∅ (undoing the ADD discards an absent
ticker, a no-op), and re-applying the event forward — the events after day
0 in chronological order are exactly that one ADD — yields {D}, not the
current membership ∅. -/
theorem backward_replay_counterexample :
    buildTimeline 0 0 (∅ : Finset String) [] [Event.mk 10 "D" "ADD" "D Corp"] =
      [Snapshot.mk 0 [] []] ∧
    (((sortDesc [Event.mk 10 "D" "ADD" "D Corp"]).filter fun ev =>
        decide ((0 : Int) < ev.date)).reverse).foldl redo
      (([] : List String).toFinset) ≠ (∅ : Finset String) := by
  constructor
  · unfold buildTimeline
    rw [sortDesc_singleton]
    rw [buildLoop_pos _ _ _ (by norm_num)]
    rw [buildLoop_neg _ _ _ (by norm_num)]
    decide
  · rw [sortDesc_singleton]
    decide

/-- Claim C1 (amended): backward-replay round-trip. For every week in the
built timeline, if the backward pass that produced that week's snapshot is
consistent — every undone ADD's ticker was present and every undone
REMOVE's ticker absent at the moment it was undone (`consistentUndo`),
which is the case whenever the event log agrees with the current
membership — then re-applying the events dated strictly after the
snapshot's date in chronological order (the reverse of the queue order)
to the snapshot's member set reproduces the current membership exactly. -/
theorem backward_replay_roundtrip {st e : Int} {cur : Finset String}
    {m : Dict} {log : List Event} {snap : Snapshot}
    (h : snap ∈ buildTimeline st e cur m log)
    (hc : consistentUndo cur
      ((sortDesc log).filter fun ev =>
        decide (snap.week_start < ev.date)) = true) :
    ((((sortDesc log).filter fun ev =>
        decide (snap.week_start < ev.date)).reverse).foldl redo
      snap.tickers.toFinset) = cur := by
  obtain ⟨-, -, -, h4, -⟩ := buildTimeline_tickers h
  have hset : snap.tickers.toFinset =
      ((sortDesc log).filter fun ev =>
        decide (snap.week_start < ev.date)).foldl undo cur := by
    rw [h4]
    exact sortedTickers_toFinset _
  rw [hset]
  exact replay_roundtrip _ cur hc

/-- Witness for C1: a consistent concrete input. Current membership
{A,B,C,D}, one ADD-D event at day 151, snapshot built for day 120: the
backward pass is consistent (D is present when the ADD is undone), and
replaying the event forward onto the snapshot's member set {A,B,C} gives
back {A,B,C,D}. -/
theorem backward_replay_roundtrip_witness :
    (Snapshot.mk 120 ["A", "B", "C"] ["NA", "NA", "NA"]) ∈
      buildTimeline 120 120 ({"A", "B", "C", "D"} : Finset String) []
        [Event.mk 151 "D" "ADD" "D Corp"] ∧
    consistentUndo ({"A", "B", "C", "D"} : Finset String)
      ((sortDesc [Event.mk 151 "D" "ADD" "D Corp"]).filter fun ev =>
        decide ((Snapshot.mk 120 ["A", "B", "C"] ["NA", "NA", "NA"]).week_start
          < ev.date)) = true ∧
    ((((sortDesc [Event.mk 151 "D" "ADD" "D Corp"]).filter fun ev =>
        decide ((Snapshot.mk 120 ["A", "B", "C"] ["NA", "NA", "NA"]).week_start
          < ev.date)).reverse).foldl redo
      (Snapshot.mk 120 ["A", "B", "C"] ["NA", "NA", "NA"]).tickers.toFinset) =
      ({"A", "B", "C", "D"} : Finset String) := by
  have hmem : (Snapshot.mk 120 ["A", "B", "C"] ["NA", "NA", "NA"]) ∈
      buildTimeline 120 120 ({"A", "B", "C", "D"} : Finset String) []
        [Event.mk 151 "D" "ADD" "D Corp"] := by
    rw [timelineABCD_eq]
    exact List.mem_singleton.2 rfl
  have hc : consistentUndo ({"A", "B", "C", "D"} : Finset String)
      ((sortDesc [Event.mk 151 "D" "ADD" "D Corp"]).filter fun ev =>
        decide ((Snapshot.mk 120 ["A", "B", "C"] ["NA", "NA", "NA"]).week_start
          < ev.date)) = true := by
    rw [sortDesc_singleton]
    decide
  exact ⟨hmem, hc, backward_replay_roundtrip hmem hc⟩

/-- Claim C4 counterexample: date-ties are not broken by input order. A
single change row adding the two tickers AAA and ZZZ produces two events
with the same `effective_date` in input order AAA-then-ZZZ, but the sorted
change log places ZZZ first (full-tuple reverse comparison), flipping
their input order. -/
theorem event_ordering_counterexample :
    (parseChanges
        [ChangeRow.mk (some 5) (some ["AAA", "ZZZ"]) ["a", "z"] none []] []).1 =
      [Event.mk 5 "AAA" "ADD" "a", Event.mk 5 "ZZZ" "ADD" "z"] ∧
    sortDesc [Event.mk 5 "AAA" "ADD" "a", Event.mk 5 "ZZZ" "ADD" "z"] =
      [Event.mk 5 "ZZZ" "ADD" "z", Event.mk 5 "AAA" "ADD" "a"] ∧
    (Event.mk 5 "AAA" "ADD" "a").date = (Event.mk 5 "ZZZ" "ADD" "z").date ∧
    Event.mk 5 "AAA" "ADD" "a" ≠ Event.mk 5 "ZZZ" "ADD" "z" := by
  refine ⟨by decide, ?_, rfl, by decide⟩
  simp +decide [sortDesc, List.mergeSort, List.merge, eventLe, strLe, strLeAux]

/-- Claim C4 (amended): the sorted change log is a permutation of the
parsed log, totally ordered by the reverse of the full-tuple comparison
`(effective_date, ticker, action, name)` — in particular dates are weakly
descending — with ties on `effective_date` broken by the descending
ticker/action/name comparison, not by input order (input order survives
only between fully identical tuples, by stability of the sort). -/
theorem event_ordering (log : List Event) :
    (sortDesc log).Perm log ∧
    (sortDesc log).Pairwise fun a b => b.date ≤ a.date ∧ eventLe b a = true :=
  ⟨sortDesc_perm log, (sortDesc_sorted log).imp fun hab => ⟨eventLe_date hab, hab⟩⟩

/-- Claim C5: timeline coverage. For every inputs, the dates of the
produced snapshots are exactly the week-anchor dates `e`, `e - 7`,
`e - 14`, … down to the smallest such date `≥ st` (so a date `d` carries a
snapshot iff `st ≤ d ≤ e` and `e - d` is a multiple of 7), recorded in
strictly descending order. -/
theorem timeline_coverage (st e : Int) (cur : Finset String) (m : Dict)
    (log : List Event) :
    (∀ d : Int,
      d ∈ (buildTimeline st e cur m log).map (fun s => s.week_start) ↔
        st ≤ d ∧ d ≤ e ∧ (e - d) % 7 = 0) ∧
    ((buildTimeline st e cur m log).map (fun s => s.week_start)).Pairwise (· > ·) := by
  unfold buildTimeline
  rw [buildLoop_dates st m e (sortDesc log) cur]
  exact ⟨mem_anchorDates st e, anchorDates_sorted st e⟩

/-- Claim C6: monotonic queue consumption. The whole timeline build
consumes the sorted queue monotonically: the original sorted log splits
into the consumed prefix (each event undone at most once, none ever
re-scanned) followed by the untouched final queue, and the total number of
undo operations — the difference between the initial and final queue
lengths — never exceeds the number of events dated strictly after the
earliest visited snapshot date `lastAnchor st e`. -/
theorem monotonic_queue_consumption (st e : Int) (cur : Finset String)
    (m : Dict) (log : List Event) (h : st ≤ e) :
    sortDesc log =
      ((sortDesc log).takeWhile fun ev => decide (lastAnchor st e < ev.date)) ++
        (buildLoop st m e (sortDesc log) cur).2.1 ∧
    (sortDesc log).length - (buildLoop st m e (sortDesc log) cur).2.1.length ≤
      (log.filter fun ev => decide (lastAnchor st e < ev.date)).length := by
  have hq := buildLoop_queue st m e (sortDesc log) cur h
  have hsplit := List.takeWhile_append_dropWhile
    (fun ev => decide (lastAnchor st e < ev.date)) (sortDesc log)
  constructor
  · rw [hq]
    exact hsplit.symm
  · rw [hq]
    have hlen : ((sortDesc log).takeWhile
          fun ev => decide (lastAnchor st e < ev.date)).length +
        ((sortDesc log).dropWhile
          fun ev => decide (lastAnchor st e < ev.date)).length =
        (sortDesc log).length := by
      conv_rhs => rw [← hsplit]
      rw [List.length_append]
    have hf : ((sortDesc log).takeWhile
          fun ev => decide (lastAnchor st e < ev.date)) =
        (sortDesc log).filter fun ev => decide (lastAnchor st e < ev.date) :=
      takeWhile_eq_filter_of_sorted _ _ (sortDesc_dateSorted log)
    have hperm : ((sortDesc log).filter
          fun ev => decide (lastAnchor st e < ev.date)).length =
        (log.filter fun ev => decide (lastAnchor st e < ev.date)).length :=
      ((sortDesc_perm log).filter _).length_eq
    have hfl : ((sortDesc log).takeWhile
          fun ev => decide (lastAnchor st e < ev.date)).length =
        (log.filter fun ev => decide (lastAnchor st e < ev.date)).length := by
      rw [hf]
      exact hperm
    omega

/-- Witness for C6: two events, one snapshot window from day 0 to day 7;
the earliest visited snapshot date is day 0 and both events are dated
after it. -/
theorem monotonic_queue_consumption_witness :
    (0 : Int) ≤ 7 ∧
    (sortDesc [Event.mk 10 "X" "ADD" "x", Event.mk 3 "Y" "ADD" "y"] =
      ((sortDesc [Event.mk 10 "X" "ADD" "x", Event.mk 3 "Y" "ADD" "y"]).takeWhile
        fun ev => decide (lastAnchor 0 7 < ev.date)) ++
        (buildLoop 0 [] 7
          (sortDesc [Event.mk 10 "X" "ADD" "x", Event.mk 3 "Y" "ADD" "y"])
          ∅).2.1 ∧
    (sortDesc [Event.mk 10 "X" "ADD" "x", Event.mk 3 "Y" "ADD" "y"]).length -
        (buildLoop 0 [] 7
          (sortDesc [Event.mk 10 "X" "ADD" "x", Event.mk 3 "Y" "ADD" "y"])
          ∅).2.1.length ≤
      ([Event.mk 10 "X" "ADD" "x", Event.mk 3 "Y" "ADD" "y"].filter
        fun ev => decide (lastAnchor 0 7 < ev.date)).length) :=
  ⟨by norm_num,
   monotonic_queue_consumption 0 7 ∅ []
     [Event.mk 10 "X" "ADD" "x", Event.mk 3 "Y" "ADD" "y"] (by norm_num)⟩

theorem fst_mem_take_of_mem_zip {α β : Type} :
    ∀ {as : List α} {bs : List β} {p : α × β}, p ∈ as.zip bs →
      p.1 ∈ as.take (min as.length bs.length)
  | [], _, _, hp => by simp at hp
  | _ :: _, [], _, hp => by simp at hp
  | a :: as, b :: bs, p, hp => by
    simp only [List.zip_cons_cons, List.mem_cons] at hp
    rcases hp with rfl | hp
    · simp [List.length_cons, Nat.succ_min_succ, List.take_succ_cons]
    · have h := fst_mem_take_of_mem_zip hp
      simp only [List.length_cons, Nat.succ_min_succ, List.take_succ_cons,
        List.mem_cons]
      exact Or.inr h

/-- Claim C7: mismatched-length change rows. A row whose ticker list and
name list differ in length never fails to parse (the embedding is total);
it contributes exactly `min #tickers #names` ADD events and
`min #tickers #names` REMOVE events for its two sides, and every event it
records draws its ticker from the truncated zip prefix — tickers beyond
the shorter length appear in no recorded event. -/
theorem mismatched_row_truncation (d : Int) (ts ns rts rns : List String)
    (acc : List Event × Dict) :
    (parseRow acc (ChangeRow.mk (some d) (some ts) ns (some rts) rns)).1 =
      acc.1 ++ ((ts.zip ns).map fun p => Event.mk d p.1 "ADD" p.2)
            ++ ((rts.zip rns).map fun p => Event.mk d p.1 "REMOVE" p.2) ∧
    (parseRow acc (ChangeRow.mk (some d) (some ts) ns (some rts) rns)).1.length =
      acc.1.length + min ts.length ns.length + min rts.length rns.length ∧
    ∀ e ∈ (parseRow acc (ChangeRow.mk (some d) (some ts) ns (some rts) rns)).1,
      e ∉ acc.1 →
        e.ticker ∈ ts.take (min ts.length ns.length) ∨
        e.ticker ∈ rts.take (min rts.length rns.length) := by
  have heq : (parseRow acc (ChangeRow.mk (some d) (some ts) ns (some rts) rns)).1 =
      acc.1 ++ ((ts.zip ns).map fun p => Event.mk d p.1 "ADD" p.2)
            ++ ((rts.zip rns).map fun p => Event.mk d p.1 "REMOVE" p.2) := by
    simp [parseRow, recordEvents]
  refine ⟨heq, ?_, ?_⟩
  · rw [heq]
    simp [List.length_append, List.length_zip]
    omega
  · intro e he hnot
    rw [heq] at he
    simp only [List.append_assoc, List.mem_append, List.mem_map] at he
    rcases he with he | ⟨p, hp, rfl⟩ | ⟨p, hp, rfl⟩
    · exact absurd he hnot
    · exact Or.inl (fst_mem_take_of_mem_zip hp)
    · exact Or.inr (fst_mem_take_of_mem_zip hp)

/-- Claim C8: snapshot name alignment and sentinel fallback. In every
snapshot the builder pipeline produces, the name list is positionally
aligned with the ticker list (same length), each name is the lookup of the
corresponding ticker in the merged current-roster/event-name mapping, and
a ticker with no binding in that mapping falls back to the sentinel
value `"NA"`. -/
theorem snapshot_names_aligned {st e : Int} {current : List CurrentRow}
    {rows : List ChangeRow} {snap : Snapshot}
    (h : snap ∈ runBuilder st e current rows) :
    snap.names.length = snap.tickers.length ∧
    snap.names = snap.tickers.map (fun t =>
      dictGet (parseChanges rows
        (current.foldl (fun m r => dictUpd m r.symbol r.security) [])).2 t "NA") ∧
    ∀ t ∈ snap.tickers,
      dictFind (parseChanges rows
          (current.foldl (fun m r => dictUpd m r.symbol r.security) [])).2 t =
        none →
      dictGet (parseChanges rows
        (current.foldl (fun m r => dictUpd m r.symbol r.security) [])).2 t "NA" =
        "NA" := by
  unfold runBuilder at h
  obtain ⟨-, -, -, -, h5⟩ := buildTimeline_tickers h
  refine ⟨by rw [h5, List.length_map], h5, ?_⟩
  intro t _ hf
  rw [dictGet, hf]
  rfl

/-- Witness for C8: one current-roster row (A, Alpha), no change rows, one
snapshot at day 0. -/
theorem snapshot_names_aligned_witness :
    (Snapshot.mk 0 ["A"] ["Alpha"]) ∈
      runBuilder 0 0 [CurrentRow.mk "A" "Alpha"] [] ∧
    ((Snapshot.mk 0 ["A"] ["Alpha"]).names.length =
      (Snapshot.mk 0 ["A"] ["Alpha"]).tickers.length ∧
    (Snapshot.mk 0 ["A"] ["Alpha"]).names =
      (Snapshot.mk 0 ["A"] ["Alpha"]).tickers.map (fun t =>
        dictGet (parseChanges []
          ([CurrentRow.mk "A" "Alpha"].foldl
            (fun m r => dictUpd m r.symbol r.security) [])).2 t "NA") ∧
    ∀ t ∈ (Snapshot.mk 0 ["A"] ["Alpha"]).tickers,
      dictFind (parseChanges []
          ([CurrentRow.mk "A" "Alpha"].foldl
            (fun m r => dictUpd m r.symbol r.security) [])).2 t = none →
      dictGet (parseChanges []
        ([CurrentRow.mk "A" "Alpha"].foldl
          (fun m r => dictUpd m r.symbol r.security) [])).2 t "NA" = "NA") := by
  have h0 : sortDesc [] = [] := by simp [sortDesc]
  have hmem : (Snapshot.mk 0 ["A"] ["Alpha"]) ∈
      runBuilder 0 0 [CurrentRow.mk "A" "Alpha"] [] := by
    unfold runBuilder buildTimeline
    simp only [parseChanges, List.foldl_nil, List.foldl_cons, h0]
    rw [buildLoop_pos _ _ _ (by norm_num), buildLoop_neg _ _ _ (by norm_num)]
    decide
  exact ⟨hmem, snapshot_names_aligned hmem⟩

/-- Claim C9: determinism of the builder. Two runs of the whole builder
pipeline over identical inputs — the same current-membership table and the
same historical-changes table — produce identical snapshot lists, date for
date, ticker for ticker, name for name. (The source's only candidate for
nondeterminism, Python `set` iteration order, is discharged by the
`sorted(...)` call before anything is recorded; the embedding is a pure
function of its inputs.) -/
theorem builder_deterministic (st e : Int) (cur1 cur2 : List CurrentRow)
    (rows1 rows2 : List ChangeRow) (hcur : cur1 = cur2)
    (hrows : rows1 = rows2) :
    runBuilder st e cur1 rows1 = runBuilder st e cur2 rows2 := by
  rw [hcur, hrows]

/-- Witness for C9: the builder pipeline at a concrete input, run twice. -/
theorem builder_deterministic_witness :
    runBuilder 0 0 [CurrentRow.mk "A" "Alpha"]
        [ChangeRow.mk (some 5) (some ["B"]) ["Beta"] none []] =
      runBuilder 0 0 [CurrentRow.mk "A" "Alpha"]
        [ChangeRow.mk (some 5) (some ["B"]) ["Beta"] none []] :=
  builder_deterministic 0 0 _ _ _ _ rfl rfl

theorem selLe_trans {a b c : String × Nat} (h1 : selLe a b = true)
    (h2 : selLe b c = true) : selLe a c = true := by
  unfold selLe at h1 h2 ⊢
  refine lexIf_trans (fun x y : Nat => decide (y < x))
    (fun hu hv => by simp only [decide_eq_true_eq] at hu hv ⊢; omega)
    (fun hu hv => by simp only [decide_eq_true_eq] at hu hv; omega)
    ?_ h1 h2
  exact fun hu hv => strLe_trans hu hv

theorem selLe_total (a b : String × Nat) : selLe a b = true ∨ selLe b a = true := by
  unfold selLe
  refine lexIf_total (fun x y : Nat => decide (y < x))
    (fun x y h => by simp only [decide_eq_true_eq]; omega) ?_
  exact fun _ => strLe_total a.1 b.1

theorem selLe_iff {a b : String × Nat} :
    selLe a b = true ↔ b.2 < a.2 ∨ (a.2 = b.2 ∧ strLe a.1 b.1 = true) := by
  unfold selLe
  by_cases h : a.2 = b.2
  · simp [h, lt_irrefl]
  · simp [h, fun e : b.2 = a.2 => h e.symm]

/-- Claim C3: top-N selection (modelled from the spec, the selection code
being absent from the provided sources). For every weekly tally, the
selection holds at most `TOP_N_WEEKLY` pairs, pairwise ordered descending
by mention count with ties broken ascending by ticker symbol; and in the
spec's scenario — ZZZ and AAA tied at count 3 with a top-1 selection — the
selection is exactly [("AAA", 3)]. -/
theorem top_selection_spec :
    (∀ tally : List (String × Nat),
      (topSelection TOP_N_WEEKLY tally).length ≤ TOP_N_WEEKLY ∧
      (topSelection TOP_N_WEEKLY tally).Pairwise
        fun a b => b.2 < a.2 ∨ (a.2 = b.2 ∧ strLe a.1 b.1 = true)) ∧
    topSelection 1 [("ZZZ", 3), ("AAA", 3)] = [("AAA", 3)] := by
  constructor
  · intro tally
    constructor
    · exact List.length_take_le _ _
    · have hs : (tally.mergeSort selLe).Pairwise fun a b => selLe a b = true := by
        refine List.sorted_mergeSort ?_ ?_ tally
        · exact fun _ _ _ hab hbc => selLe_trans hab hbc
        · intro a b
          rcases selLe_total a b with h | h <;> simp [h]
      exact ((hs.sublist (List.take_sublist _ _)).imp fun hab => selLe_iff.1 hab)
  · simp +decide [topSelection, List.mergeSort, List.merge, selLe, strLe, strLeAux]

theorem cumprod_length (returns : List ℚ) :
    (cumprod returns).length = returns.length := by
  unfold cumprod
  rw [List.length_reverse]
  have key : ∀ (rs : List ℚ) (acc : List ℚ),
      (rs.foldl (fun acc r => ((acc.headD 1) * (1 + r)) :: acc) acc).length =
        acc.length + rs.length := by
    intro rs
    induction rs with
    | nil => intro acc; simp
    | cons r rs ih =>
      intro acc
      rw [List.foldl_cons, ih]
      simp
      omega
  have h := key returns []
  rw [h]
  simp

/-- Claim C10: `calculate_metrics` requires a non-empty weekly-returns
series. On the empty input it fails before producing a metrics record
(`cumulative_returns.iloc[-1]` indexes an empty series, and `years = 0`
would make the CAGR's `1 / years` division ill-defined); on every
non-empty input the record is produced and the CAGR branch's divisor
`years = len(returns) / 52` is strictly positive. -/
theorem calculate_metrics_partiality :
    calculate_metrics [] = none ∧
    ∀ rs : List ℚ, rs ≠ [] →
      ∃ mtr : Metrics, calculate_metrics rs = some mtr ∧ 0 < mtr.years := by
  refine ⟨rfl, ?_⟩
  intro rs hne
  have hlen : 0 < rs.length := List.length_pos.2 hne
  have hcp : cumprod rs ≠ [] := by
    intro hnil
    have hl := cumprod_length rs
    rw [hnil] at hl
    simp at hl
    omega
  have hsome : (cumprod rs).getLast? ≠ none := by
    rw [Ne, List.getLast?_eq_none_iff]
    exact hcp
  obtain ⟨v, hv⟩ := Option.ne_none_iff_exists'.1 hsome
  have hy : (0 : ℚ) < (rs.length : ℚ) / 52 := by
    apply div_pos
    · exact_mod_cast hlen
    · norm_num
  have hy0 : ¬ ((rs.length : ℚ) / 52 = 0) := ne_of_gt hy
  refine ⟨Metrics.mk (cumprod rs) v ((rs.length : ℚ) / 52)
    (1 / ((rs.length : ℚ) / 52)), ?_, hy⟩
  simp only [calculate_metrics, hv, hy0, if_false]

/-- Witness for C10: the empty series fails; the one-element series
`[1]` succeeds with `years = 1/52 > 0`. -/
theorem calculate_metrics_partiality_witness :
    calculate_metrics [] = none ∧
    ∃ mtr : Metrics, calculate_metrics [(1 : ℚ)] = some mtr ∧ 0 < mtr.years :=
  ⟨calculate_metrics_partiality.1,
   calculate_metrics_partiality.2 [(1 : ℚ)] (by simp)⟩

end RedditStrategy
